import Mathlib

/-!
Verification of the reconciliation modules of this repository.

The development shallowly embeds four Python modules:
* lib/ansible/modules/extras/system/pam_limits.py
* lib/ansible/modules/network/junos/junos_template.py
* lib/ansible/modules/extras/web_infrastructure/deploy_helper.py
* lib/ansible/modules/extras/packaging/os/pkg5.py

Python dynamic values that can be either an int or a str (the variable
new_value of pam_limits) are embedded as an explicit sum type PyVal whose
equality mirrors Python equality: an int is never equal to a str.
File contents are lists of lines; every line keeps its trailing newline,
exactly as Python file iteration yields it.
-/

namespace AnsibleSpec

/-! ## Basic character and string helpers (Python semantics) -/

/-- Python regex class backslash-s: space, tab, newline, carriage return,
vertical tab, form feed. -/
def isSpaceChar (c : Char) : Bool :=
  c.toNat == 32 || c.toNat == 9 || c.toNat == 10 || c.toNat == 13 ||
  c.toNat == 11 || c.toNat == 12

/-- Decimal digit test, as used by Python str.isdigit on ASCII data. -/
def isDigitChar (c : Char) : Bool :=
  48 ≤ c.toNat && c.toNat ≤ 57

/-- Whitespace tokenizer worker; cur is the reversed current token. -/
def tokensGo : List Char → List Char → List (List Char)
  | [], cur => if cur.isEmpty then [] else [cur.reverse]
  | c :: cs, cur =>
    if isSpaceChar c then
      if cur.isEmpty then tokensGo cs [] else cur.reverse :: tokensGo cs []
    else tokensGo cs (c :: cur)

/-- The whitespace separated tokens of a character list.  This is the
composition used by pam_limits: re.sub of runs of whitespace by one space,
strip, then split on the single space. -/
def tokens (l : List Char) : List (List Char) := tokensGo l []

/-- Fields of a limits.conf line (pam_limits lines 155-160). -/
def splitFields (s : String) : List String :=
  (tokens s.data).map (fun l => String.mk l)

/-- Python line.startswith applied to the hash character (pam_limits line 151). -/
def isCommentLine (s : String) : Bool := s.data.head? == some '#'

/-- Python str.isdigit: nonempty and all characters decimal digits. -/
def pyIsdigit (s : String) : Bool := !s.data.isEmpty && s.data.all isDigitChar

/-- Python int() on a digit string (value of the decimal numeral). -/
def strToNat (s : String) : Nat :=
  s.data.foldl (fun a c => 10 * a + (c.toNat - 48)) 0

/-- The decimal digit character for a value below ten. -/
def digitChar (n : Nat) : Char :=
  if n = 0 then '0' else if n = 1 then '1' else if n = 2 then '2'
  else if n = 3 then '3' else if n = 4 then '4' else if n = 5 then '5'
  else if n = 6 then '6' else if n = 7 then '7' else if n = 8 then '8'
  else '9'

/-- Fueled digit list of a natural number, most significant first. -/
def natToDigitsGo : Nat → Nat → List Char
  | 0, _ => []
  | fuel + 1, n =>
    if n < 10 then [digitChar n]
    else natToDigitsGo fuel (n / 10) ++ [digitChar (n % 10)]

/-- Python str() of a nonnegative int. -/
def natToStr (n : Nat) : String := String.mk (natToDigitsGo (n + 1) n)

/-! ## pam_limits.py -/

/-- The sentinel literals accepted as limit values (pam_limits lines 133, 171). -/
def sentinels : List String := ["unlimited", "infinity", "-1"]

/-- A value literal is valid when it is a sentinel or a digit string
(pam_limits lines 133 and 171). -/
def isLimitValue (v : String) : Bool := sentinels.contains v || pyIsdigit v

/-- A Python value that is either an int or a str; the variable new_value of
pam_limits holds an int after max()/min() of two ints and a str otherwise. -/
inductive PyVal where
  | pint (n : Nat)
  | pstr (s : String)
deriving DecidableEq

/-- Python equality between such values: an int never equals a str. -/
def pyEq : PyVal → PyVal → Bool
  | .pint n, .pint m => n == m
  | .pstr s, .pstr t => s == t
  | _, _ => false

/-- Python str() of such a value. -/
def pyStr : PyVal → String
  | .pint n => natToStr n
  | .pstr s => s

/-- Module parameters of pam_limits (argument_spec, lines 101-110). -/
structure Params where
  domain : String
  limit_type : String
  limit_item : String
  value : String
  use_max : Bool
  use_min : Bool
deriving DecidableEq

/-- The limit types accepted by the argument_spec (pam_limits line 95). -/
def pam_types : List String := ["soft", "hard", "-"]

/-- The limit items accepted by the argument_spec (pam_limits line 93). -/
def pam_items : List String :=
  ["core", "data", "fsize", "memlock", "nofile", "rss", "stack", "cpu",
   "nproc", "as", "maxlogins", "maxsyslogins", "priority", "locks",
   "sigpending", "msgqueue", "nice", "rtprio", "chroot"]

/-- The value written for a matched line (pam_limits lines 182-199).
new_value starts as the str value and is reassigned by the use_max block and
then by the use_min block; max()/min() of two parsed ints yields an int. -/
def newValue (p : Params) (actual : String) : PyVal :=
  let nv : PyVal := .pstr p.value
  let nv : PyVal :=
    if p.use_max then
      if pyIsdigit p.value && pyIsdigit actual then
        .pint (Nat.max (strToNat p.value) (strToNat actual))
      else if sentinels.contains actual then .pstr actual
      else .pstr p.value
    else nv
  let nv : PyVal :=
    if p.use_min then
      if pyIsdigit p.value && pyIsdigit actual then
        .pint (Nat.min (strToNat p.value) (strToNat actual))
      else if sentinels.contains p.value then .pstr actual
      else .pstr p.value
    else nv
  nv

/-- The rewritten line (pam_limits lines 204 and 215): tab separated fields
followed by str(new_value) and a newline. -/
def newLimit (p : Params) (nv : PyVal) : String :=
  p.domain ++ "\t" ++ p.limit_type ++ "\t" ++ p.limit_item ++ "\t" ++
    pyStr nv ++ "\n"

/-- What the loop body of pam_limits (lines 150-211) does with one line. -/
inductive LineAction where
  | copyLine
  | keepLine
  | writeLine (nl : String)
  | failLine (item : String)
deriving DecidableEq

/-- Faithful transcription of the loop body of pam_limits main, lines 150-211:
comments, blank lines and lines without exactly four fields are copied; a
four-field line with an unsupported value is fatal; a line whose key matches
is kept when the desired value equals the current one or when the computed
new_value equals the current value under Python equality, and rewritten
otherwise; every other line is copied. -/
def classify (p : Params) (line : String) : LineAction :=
  if isCommentLine line then .copyLine
  else
    match splitFields line with
    | [d, t, i, a] =>
      if !isLimitValue a then .failLine i
      else if d = p.domain ∧ t = p.limit_type ∧ i = p.limit_item then
        if p.value = a then .keepLine
        else
          let nv := newValue p a
          if pyEq nv (.pstr a) then .keepLine
          else .writeLine (newLimit p nv)
      else .copyLine
    | _ => .copyLine

/-- State threaded through the rewrite loop of pam_limits main. -/
structure LoopState where
  found : Bool
  changed : Bool
  message : String
  out : List String
deriving DecidableEq

/-- Errors of a pam_limits run; fail_json aborts before the temp file is
moved over the original, so each constructor is a terminal outcome. -/
inductive PamError where
  | badType
  | badItem
  | notVisible
  | notWritable
  | mutex
  | badValue
  | corrupt (item : String)
deriving DecidableEq

/-- One loop iteration of pam_limits main over the current line. -/
def processLine (p : Params) (st : LoopState) (line : String) :
    Except PamError LoopState :=
  match classify p line with
  | .copyLine => .ok { st with out := st.out ++ [line] }
  | .keepLine => .ok { st with found := true, message := line, out := st.out ++ [line] }
  | .writeLine nl =>
      .ok { st with found := true, changed := true, message := nl, out := st.out ++ [nl] }
  | .failLine item => .error (.corrupt item)

/-- The whole rewrite loop of pam_limits main. -/
def runLines (p : Params) : List String → LoopState → Except PamError LoopState
  | [], st => .ok st
  | l :: ls, st =>
    match processLine p st l with
    | .error e => .error e
    | .ok st2 => runLines p ls st2

/-- Result of a successful pam_limits run. -/
structure RunResult where
  changed : Bool
  content : List String
  message : String
deriving DecidableEq

/-- The loop followed by the append of lines 213-217: when no line matched,
the desired entry is appended with new_value, which still holds the str
value, and changed is set. -/
def pamApply (p : Params) (lines : List String) : Except PamError RunResult :=
  match runLines p lines { found := false, changed := false, message := "", out := [] } with
  | .error e => .error e
  | .ok st =>
    if st.found then .ok { changed := st.changed, content := st.out, message := st.message }
    else
      .ok { changed := true
            content := st.out ++ [newLimit p (.pstr p.value)]
            message := newLimit p (.pstr p.value) }

/-- Observable state of the target limits file. -/
structure FileState where
  isfile : Bool
  writable : Bool
  content : List String
deriving DecidableEq

/-- pam_limits main, lines 99-232: the argument_spec choices validation of
limit_type and limit_item, then the isfile and writability checks of lines
124-128, then the use_max and use_min exclusion of line 130, then the value
validation of line 133, then the rewrite loop and the append.  The backup
copy is omitted: it writes a sibling file and never alters the outcome. -/
def pamMain (p : Params) (fs : FileState) : Except PamError RunResult :=
  if ¬ pam_types.contains p.limit_type then .error .badType
  else if ¬ pam_items.contains p.limit_item then .error .badItem
  else if ¬ fs.isfile then .error .notVisible
  else if ¬ fs.writable then .error .notWritable
  else if p.use_max && p.use_min then .error .mutex
  else if ¬ isLimitValue p.value then .error .badValue
  else pamApply p fs.content

/-- The final file: module.atomic_move (line 223) replaces the file only when
the run reaches it; every fail_json path leaves the original untouched. -/
def pamMainFinal (p : Params) (fs : FileState) :
    FileState × Except PamError (Bool × String) :=
  match pamMain p fs with
  | .error e => (fs, .error e)
  | .ok r => ({ fs with content := r.content }, .ok (r.changed, r.message))

/-- The line emitted for one input line (the copy or the rewrite); on the
fatal branch nothing is emitted and the value is irrelevant. -/
def emitLine (p : Params) (line : String) : String :=
  match classify p line with
  | .writeLine nl => nl
  | _ => line

/-- Whether the loop body treats the line as the desired entry. -/
def matchedAction : LineAction → Bool
  | .keepLine => true
  | .writeLine _ => true
  | _ => false

/-! ## junos_template.py -/

/-- One parsed configuration statement: raw text, own text, and the texts of
the parent statements, outermost first (junos_template works with such
objects through item.raw, item.text and item.parents). -/
structure ConfigItem where
  raw : String
  text : String
  parents : List String
deriving DecidableEq

/-- Python string " ".join. -/
def joinSpace : List String → String
  | [] => ""
  | [s] => s
  | s :: rest => s ++ " " ++ joinSpace rest

/-- Python str.endswith applied to a semicolon. -/
def endsWithSemi (s : String) : Bool := s.data.getLast? == some ';'

/-- junos_template to_lines, lines 118-125: collect, in order, the space
joined parent chain plus leaf text of every item whose raw text ends in a
semicolon. -/
def to_lines (config : List ConfigItem) : List String :=
  config.foldl
    (fun lines item =>
      if endsWithSemi item.raw then lines ++ [joinSpace (item.parents ++ [item.text])]
      else lines)
    []

/-- junos_template main, lines 161-164: keep every desired command line that
is not already among the current configuration lines, prefixed with set. -/
def candidate (commands config : List String) : List String :=
  commands.foldl
    (fun cand item => if config.contains item then cand else cand ++ ["set " ++ item])
    []

/-- The update list computed by junos_template main from the parsed desired
source and the parsed current configuration. -/
def junosUpdates (parsedSrc parsedCurrent : List ConfigItem) : List String :=
  candidate (to_lines parsedSrc) (to_lines parsedCurrent)

/-! ## pkg5.py -/

/-- The command execution collaborator: module.run_command maps an argv to
exit code, stdout and stderr. -/
structure PkgModule where
  runCommand : List String → Int × String × String

/-- pkg5 is_installed, lines 98-100. -/
def is_installed (m : PkgModule) (package : String) : Bool :=
  (m.runCommand ["pkg", "list", "--", package]).1 == 0

/-- pkg5 is_latest, lines 103-105. -/
def is_latest (m : PkgModule) (package : String) : Bool :=
  (m.runCommand ["pkg", "list", "-u", "--", package]).1 == 1

/-- The three canonical states after the alias folding of pkg5 main. -/
inductive PkgState where
  | present
  | latest
  | absent
deriving DecidableEq

/-- The behaviour table filter of pkg5 ensure, lines 68-81. -/
def stateFilt (m : PkgModule) : PkgState → String → Bool
  | .present => fun p => !is_installed m p
  | .latest => fun p => !is_latest m p
  | .absent => fun p => is_installed m p

/-- The behaviour table subcommand of pkg5 ensure, lines 68-81. -/
def subcommandOf : PkgState → String
  | .present => "install"
  | .latest => "install"
  | .absent => "uninstall"

/-- Observable outcome of pkg5 ensure: the command run (if any), its exit
code, the message (stderr captured into msg), the changed flag, and whether
fail_json was reached. -/
structure PkgResult where
  ran : Option (List String)
  rc : Option Int
  msg : String
  changed : Bool
  failed : Bool
deriving DecidableEq

/-- pkg5 ensure, lines 63-95: filter the packages through the behaviour
table, and when any remain, run one batched pkg command over all of them;
a nonzero exit reaches fail_json with msg holding the captured stderr. -/
def ensure (m : PkgModule) (state : PkgState) (packages : List String) : PkgResult :=
  let to_modify := packages.filter (stateFilt m state)
  if to_modify.isEmpty then
    { ran := none, rc := none, msg := "", changed := false, failed := false }
  else
    let argv := ["pkg", subcommandOf state, "-q", "--"] ++ to_modify
    let r := m.runCommand argv
    { ran := some argv, rc := some r.1, msg := r.2.2, changed := true,
      failed := r.1 != 0 }

/-! ## deploy_helper.py -/

/-- One release folder under releases_path: its name, its filesystem
creation time, and whether it still contains the unfinished marker file. -/
structure Release where
  name : String
  ctime : Nat
  unfinished : Bool
deriving DecidableEq

/-- Sorting relation used by cleanup: most recent creation time first. -/
def ctimeDesc (a b : Release) : Prop := b.ctime ≤ a.ctime

instance : DecidableRel ctimeDesc := fun a b => Nat.decLe b.ctime a.ctime

instance : IsTotal Release ctimeDesc := ⟨fun a b => Nat.le_total b.ctime a.ctime⟩

instance : IsTrans Release ctimeDesc := ⟨fun _ _ _ h1 h2 => Nat.le_trans h2 h1⟩

/-- deploy_helper remove_unfinished_builds, lines 251-261: delete every
release folder that still contains the unfinished marker; each deletion
counts one change. -/
def remove_unfinished_builds (rs : List Release) :
    List Release × Nat :=
  (rs.filter (fun r => !r.unfinished), (rs.filter (fun r => r.unfinished)).length)

/-- deploy_helper cleanup, lines 263-276: sort the remaining release folders
by creation time, most recent first, keep the first keep_releases of them and
delete the rest, counting one change per deletion. -/
def cleanup (keep : Nat) (rs : List Release) : List Release × Nat :=
  let sorted := rs.insertionSort ctimeDesc
  (sorted.take keep, (sorted.drop keep).length)

/-- The clean procedure (state clean, lines 344-346, also run by finalize
when clean is enabled, lines 340-342): unfinished purge first, then the
retention pass over what is left. -/
def cleanOp (keep : Nat) (rs : List Release) : List Release × Nat :=
  let r1 := remove_unfinished_builds rs
  let r2 := cleanup keep r1.1
  (r2.1, r1.2 + r2.2)

/-- deploy_helper create_link, lines 233-239: unlink and recreate the
symlink, and return True unconditionally. -/
def create_link : Bool := true

/-- deploy_helper remove_unfinished_file, lines 241-249: remove the marker
file from the target release; one change when the marker existed. -/
def remove_unfinished_file (name : String) (rs : List Release) :
    List Release × Nat :=
  if rs.any (fun r => r.name == name && r.unfinished) then
    (rs.map (fun r => if r.name = name then { r with unfinished := false } else r), 1)
  else (rs, 0)

/-- Parameters of a deploy_helper finalize run. -/
structure DeployParams where
  release : String
  keep_releases : Int
  clean : Bool
deriving DecidableEq

/-- Validation failures of deploy_helper finalize, lines 333-336. -/
inductive DeployError where
  | releaseRequired
  | keepReleasesTooSmall
deriving DecidableEq

/-- deploy_helper main for state finalize, lines 332-342 and 353-356: the
release and keep_releases validations, the marker removal on the target
release, the unconditional symlink creation (create_link returns True, so it
always contributes one change), the optional clean, and changed as the test
changes greater than zero. -/
def finalize (p : DeployParams) (rs : List Release) :
    Except DeployError (Bool × List Release) :=
  if p.release = "" then .error .releaseRequired
  else if p.keep_releases ≤ 0 then .error .keepReleasesTooSmall
  else
    let r1 := remove_unfinished_file p.release rs
    let c2 : Nat := if create_link then 1 else 0
    let r3 := if p.clean then cleanOp p.keep_releases.toNat r1.1 else (r1.1, 0)
    .ok (decide (0 < r1.2 + c2 + r3.2), r3.1)

end AnsibleSpec

deriving instance DecidableEq for Except

namespace AnsibleSpec

/-! ## Predicates used by the theorem statements -/

/-- A string usable as a single whitespace separated field. -/
def goodTok (s : String) : Bool :=
  !s.data.isEmpty && s.data.all (fun c => !isSpaceChar c)

/-- A domain whose rewritten line reparses to the same key: nonempty, free of
whitespace, and not beginning with the comment character. -/
def goodDomain (s : String) : Bool :=
  goodTok s && !(s.data.head? == some '#')

/-- The lines the non destructiveness claim is about: comments, blanks,
lines without exactly four fields, and recognized lines of a different key. -/
def preservedLine (p : Params) (l : String) : Prop :=
  isCommentLine l = true ∨ splitFields l = [] ∨ (splitFields l).length ≠ 4 ∨
  (∃ d t i a, splitFields l = [d, t, i, a] ∧
    ¬(d = p.domain ∧ t = p.limit_type ∧ i = p.limit_item))

/-- A non comment line whose four fields carry the desired key. -/
def keyMatches (p : Params) (l : String) : Prop :=
  isCommentLine l = false ∧
  ∃ a, splitFields l = [p.domain, p.limit_type, p.limit_item, a]

/-- A recognized line carrying an unsupported value literal. -/
def isBadLine (l : String) : Prop :=
  isCommentLine l = false ∧
  ∃ d t i a, splitFields l = [d, t, i, a] ∧ isLimitValue a = false

/-- Spec side description of divergence from a requested package state:
present diverges when pkg list exits nonzero, latest diverges when
pkg list -u does not exit one, absent diverges when pkg list exits zero. -/
def divergesFromState (m : PkgModule) : PkgState → String → Bool
  | .present, pkg => !((m.runCommand ["pkg", "list", "--", pkg]).1 == 0)
  | .latest, pkg => !((m.runCommand ["pkg", "list", "-u", "--", pkg]).1 == 1)
  | .absent, pkg => (m.runCommand ["pkg", "list", "--", pkg]).1 == 0

/-- Sample parameters used by witnesses. -/
def exParams : Params :=
  { domain := "joe", limit_type := "soft", limit_item := "nofile",
    value := "32000", use_max := true, use_min := false }

/-- Sample release folders used by witnesses. -/
def exReleases : List Release :=
  [{ name := "r1", ctime := 1, unfinished := false },
   { name := "r2", ctime := 2, unfinished := true },
   { name := "r3", ctime := 3, unfinished := false },
   { name := "r4", ctime := 4, unfinished := false }]

/-- The bytes of the temporary file after the sequence of nf.write calls:
the written lines are plainly concatenated, with no separator added. -/
def joinLines : List String → String
  | [] => ""
  | l :: ls => l ++ joinLines ls

/-- Worker for pyLines; cur holds the reversed current chunk. -/
def pyLinesGo : List Char → List Char → List String
  | [], cur => if cur.isEmpty then [] else [String.mk cur.reverse]
  | c :: cs, cur =>
    if c = '\n' then String.mk (cur.reverse ++ ['\n']) :: pyLinesGo cs []
    else pyLinesGo cs (c :: cur)

/-- Python file iteration over the bytes of a file: the content is split
after every newline, each line keeping its newline; a final chunk without a
newline is yielded as a line of its own.  Reopening the moved file for the
next run reads pyLines of joinLines of the previous run's written lines. -/
def pyLines (s : String) : List String := pyLinesGo s.data []

/-- A line as Python file iteration yields it from newline terminated
bytes: nonempty, ending in the newline, with no interior newline. -/
def properLine (s : String) : Bool :=
  !s.data.isEmpty && (s.data.getLast? == some '\n') &&
    s.data.dropLast.all (fun c => !(c == '\n'))

end AnsibleSpec

namespace AnsibleSpec

/-! ## Structure of the pam_limits rewrite loop -/

lemma processLine_ok (p : Params) (st st2 : LoopState) (l : String)
    (h : processLine p st l = .ok st2) :
    st2.out = st.out ++ [emitLine p l] ∧
    st2.found = (st.found || matchedAction (classify p l)) ∧
    (∀ i, classify p l ≠ .failLine i) := by
  unfold processLine at h
  cases hc : classify p l <;> rw [hc] at h
  case copyLine =>
    simp only [Except.ok.injEq] at h
    subst h
    simp [emitLine, matchedAction, hc]
  case keepLine =>
    simp only [Except.ok.injEq] at h
    subst h
    simp [emitLine, matchedAction, hc]
  case writeLine nl =>
    simp only [Except.ok.injEq] at h
    subst h
    simp [emitLine, matchedAction, hc]
  case failLine i =>
    exact absurd h (by simp)

lemma runLines_ok (p : Params) :
    ∀ (ls : List String) (st st2 : LoopState),
      runLines p ls st = .ok st2 →
      st2.out = st.out ++ ls.map (emitLine p) ∧
      st2.found = (st.found || ls.any (fun l => matchedAction (classify p l))) ∧
      ∀ l ∈ ls, ∀ i, classify p l ≠ .failLine i
  | [], st, st2, h => by
      unfold runLines at h
      simp only [Except.ok.injEq] at h
      subst h
      simp
  | l :: ls, st, st2, h => by
      unfold runLines at h
      cases hp : processLine p st l with
      | error e => rw [hp] at h; exact absurd h (by simp)
      | ok stm =>
          rw [hp] at h
          obtain ⟨ho, hf, hnf⟩ := processLine_ok p st stm l hp
          obtain ⟨ho2, hf2, hnf2⟩ := runLines_ok p ls stm st2 h
          refine ⟨?_, ?_, ?_⟩
          · rw [ho2, ho]; simp
          · rw [hf2, hf]; simp [Bool.or_assoc]
          · intro x hx i
            rcases List.mem_cons.mp hx with rfl | hx
            · exact hnf i
            · exact hnf2 x hx i

lemma runLines_no_fail_ok (p : Params) :
    ∀ (ms : List String) (st : LoopState),
      (∀ l ∈ ms, ∀ i, classify p l ≠ .failLine i) →
      ∃ st2, runLines p ms st = .ok st2
  | [], st, _ => ⟨st, rfl⟩
  | l :: ms, st, h => by
      have hl := h l (List.mem_cons_self l ms)
      have htail : ∀ x ∈ ms, ∀ i, classify p x ≠ .failLine i :=
        fun x hx => h x (List.mem_cons_of_mem l hx)
      unfold runLines
      cases hc : classify p l with
      | failLine i => exact absurd hc (hl i)
      | copyLine =>
          obtain ⟨st2, h2⟩ := runLines_no_fail_ok p ms { st with out := st.out ++ [l] } htail
          exact ⟨st2, by unfold processLine; rw [hc]; exact h2⟩
      | keepLine =>
          obtain ⟨st2, h2⟩ := runLines_no_fail_ok p ms
            { st with found := true, message := l, out := st.out ++ [l] } htail
          exact ⟨st2, by unfold processLine; rw [hc]; exact h2⟩
      | writeLine nl =>
          obtain ⟨st2, h2⟩ := runLines_no_fail_ok p ms
            { st with found := true, changed := true, message := nl, out := st.out ++ [nl] } htail
          exact ⟨st2, by unfold processLine; rw [hc]; exact h2⟩

/-! ## Inversion of the loop body -/

lemma classify_eq_write_inv (p : Params) (l nl : String)
    (h : classify p l = .writeLine nl) :
    isCommentLine l = false ∧
    ∃ a, splitFields l = [p.domain, p.limit_type, p.limit_item, a] ∧
      isLimitValue a = true ∧ p.value ≠ a ∧
      pyEq (newValue p a) (.pstr a) = false ∧ nl = newLimit p (newValue p a) := by
  unfold classify at h
  split at h
  · exact absurd h (by simp)
  · rename_i hcom
    split at h
    · rename_i d t i a heq
      split at h
      · exact absurd h (by simp)
      · rename_i hval
        split at h
        · rename_i hkey
          split at h
          · exact absurd h (by simp)
          · dsimp only at h
            split at h
            · exact absurd h (by simp)
            · rename_i hne hpy
              obtain ⟨rfl, rfl, rfl⟩ := hkey
              simp only [LineAction.writeLine.injEq] at h
              exact ⟨by simpa using hcom,
                a, heq, by simpa using hval, hne, by simpa using hpy, h.symm⟩
        · exact absurd h (by simp)
    · exact absurd h (by simp)

lemma classify_eq_keep_inv (p : Params) (l : String)
    (h : classify p l = .keepLine) :
    isCommentLine l = false ∧
    ∃ a, splitFields l = [p.domain, p.limit_type, p.limit_item, a] ∧
      isLimitValue a = true := by
  unfold classify at h
  split at h
  · exact absurd h (by simp)
  · rename_i hcom
    split at h
    · rename_i d t i a heq
      split at h
      · exact absurd h (by simp)
      · rename_i hval
        split at h
        · rename_i hkey
          obtain ⟨rfl, rfl, rfl⟩ := hkey
          exact ⟨by simpa using hcom, a, heq, by simpa using hval⟩
        · exact absurd h (by simp)
    · exact absurd h (by simp)

lemma classify_fail_of_bad (p : Params) (l : String) (h : isBadLine l) :
    ∃ i, classify p l = .failLine i := by
  obtain ⟨hcom, d, t, i, a, hsf, hbad⟩ := h
  refine ⟨i, ?_⟩
  unfold classify
  rw [hcom, hsf]
  simp [hbad]

lemma emitLine_eq_of_not_write (p : Params) (l : String)
    (h : ∀ nl, classify p l ≠ .writeLine nl) : emitLine p l = l := by
  unfold emitLine
  cases hc : classify p l with
  | writeLine nl => exact absurd hc (h nl)
  | copyLine => rfl
  | keepLine => rfl
  | failLine i => rfl

lemma emit_of_preserved (p : Params) (l : String) (h : preservedLine p l) :
    emitLine p l = l := by
  refine emitLine_eq_of_not_write p l (fun nl hw => ?_)
  obtain ⟨hcom, a, hsf, _, _, _, _⟩ := classify_eq_write_inv p l nl hw
  rcases h with h | h | h | ⟨d, t, i, b, hsf2, hk⟩
  · rw [hcom] at h; exact Bool.noConfusion h
  · rw [h] at hsf; exact List.noConfusion hsf
  · rw [hsf] at h; exact h rfl
  · rw [hsf] at hsf2
    injection hsf2 with e1 rest
    injection rest with e2 rest
    injection rest with e3 _
    exact hk ⟨e1.symm, e2.symm, e3.symm⟩

lemma keyMatches_of_matched (p : Params) (l : String)
    (h : matchedAction (classify p l) = true) : keyMatches p l := by
  unfold matchedAction at h
  cases hc : classify p l with
  | keepLine =>
      obtain ⟨hcom, a, hsf, _⟩ := classify_eq_keep_inv p l hc
      exact ⟨hcom, a, hsf⟩
  | writeLine nl =>
      obtain ⟨hcom, a, hsf, _⟩ := classify_eq_write_inv p l nl hc
      exact ⟨hcom, a, hsf⟩
  | copyLine => rw [hc] at h; exact Bool.noConfusion h
  | failLine i => rw [hc] at h; exact Bool.noConfusion h

end AnsibleSpec

namespace AnsibleSpec

/-! ## Inversion of pamMain and pamApply -/

lemma pamApply_ok_inv (p : Params) (lines : List String) (r : RunResult)
    (h : pamApply p lines = .ok r) :
    ∃ st, runLines p lines { found := false, changed := false, message := "", out := [] } = .ok st ∧
      ((st.found = true ∧ r = ⟨st.changed, st.out, st.message⟩) ∨
       (st.found = false ∧
         r = ⟨true, st.out ++ [newLimit p (.pstr p.value)], newLimit p (.pstr p.value)⟩)) := by
  unfold pamApply at h
  cases hr : runLines p lines { found := false, changed := false, message := "", out := [] } with
  | error e => rw [hr] at h; exact absurd h (by simp)
  | ok st =>
      refine ⟨st, rfl, ?_⟩
      have h2 : (if st.found = true then
          (Except.ok { changed := st.changed, content := st.out, message := st.message } :
            Except PamError RunResult)
        else .ok { changed := true, content := st.out ++ [newLimit p (.pstr p.value)],
                   message := newLimit p (.pstr p.value) }) = .ok r := by
        rw [← h, hr]
      split at h2
      · rename_i hf
        left
        refine ⟨hf, ?_⟩
        injection h2 with h2
        exact h2.symm
      · rename_i hf
        right
        refine ⟨by simpa using hf, ?_⟩
        injection h2 with h2
        exact h2.symm

lemma pamMain_ok_inv (p : Params) (fs : FileState) (r : RunResult)
    (h : pamMain p fs = .ok r) :
    pam_types.contains p.limit_type = true ∧ pam_items.contains p.limit_item = true ∧
    fs.isfile = true ∧ fs.writable = true ∧ (p.use_max && p.use_min) = false ∧
    isLimitValue p.value = true ∧ pamApply p fs.content = .ok r := by
  unfold pamMain at h
  split at h
  · exact absurd h (by simp)
  rename_i h1
  split at h
  · exact absurd h (by simp)
  rename_i h2
  split at h
  · exact absurd h (by simp)
  rename_i h3
  split at h
  · exact absurd h (by simp)
  rename_i h4
  split at h
  · exact absurd h (by simp)
  rename_i h5
  split at h
  · exact absurd h (by simp)
  rename_i h6
  exact ⟨by simpa using h1, by simpa using h2, by simpa using h3, by simpa using h4,
    by simpa using h5, by simpa using h6, h⟩

lemma runLines_error_of_bad (p : Params) :
    ∀ (ls : List String) (st : LoopState), (∃ l ∈ ls, isBadLine l) →
      ∃ i, runLines p ls st = .error (.corrupt i)
  | [], _, h => by simp at h
  | l :: ls, st, h => by
      unfold runLines
      cases hc : classify p l with
      | failLine i =>
          refine ⟨i, ?_⟩
          have hp : processLine p st l = .error (.corrupt i) := by
            unfold processLine; rw [hc]
          rw [hp]
      | copyLine =>
          rcases h with ⟨x, hx, hbad⟩
          rcases List.mem_cons.mp hx with rfl | hx
          · obtain ⟨i, hcf⟩ := classify_fail_of_bad p x hbad
            rw [hc] at hcf
            exact absurd hcf (by simp)
          · have hp : processLine p st l = .ok { st with out := st.out ++ [l] } := by
              unfold processLine; rw [hc]
            rw [hp]
            exact runLines_error_of_bad p ls _ ⟨x, hx, hbad⟩
      | keepLine =>
          rcases h with ⟨x, hx, hbad⟩
          rcases List.mem_cons.mp hx with rfl | hx
          · obtain ⟨i, hcf⟩ := classify_fail_of_bad p x hbad
            rw [hc] at hcf
            exact absurd hcf (by simp)
          · have hp : processLine p st l =
                .ok { st with found := true, message := l, out := st.out ++ [l] } := by
              unfold processLine; rw [hc]
            rw [hp]
            exact runLines_error_of_bad p ls _ ⟨x, hx, hbad⟩
      | writeLine nl =>
          rcases h with ⟨x, hx, hbad⟩
          rcases List.mem_cons.mp hx with rfl | hx
          · obtain ⟨i, hcf⟩ := classify_fail_of_bad p x hbad
            rw [hc] at hcf
            exact absurd hcf (by simp)
          · have hp : processLine p st l = .ok
                { st with found := true, changed := true, message := nl, out := st.out ++ [nl] } := by
              unfold processLine; rw [hc]
            rw [hp]
            exact runLines_error_of_bad p ls _ ⟨x, hx, hbad⟩

end AnsibleSpec

namespace AnsibleSpec

/-! ## Claim theorems for the limits reconciler -/

/-- C1: the reconciler is claimed to keep the current value with changed set
to false when the policy result equals the current value.  The code computes
max() of two Python ints and then compares that int against the current str
with a != test, which is always unequal in Python; at current value 64000,
desired 32000 under use_max the run therefore reports changed true and
rewrites the matched line, contradicting the claim, the module documentation
and the comment above the comparison. -/
theorem pam_useMax_marks_changed_on_kept_value :
    pamMain exParams
      { isfile := true, writable := true, content := ["joe soft nofile 64000\n"] } =
    .ok { changed := true, content := ["joe\tsoft\tnofile\t64000\n"],
          message := "joe\tsoft\tnofile\t64000\n" } := by decide

/-- C2 counterexample: a run requesting both policies against a missing file
fails with the file visibility error, not with the mutual exclusion error:
the existence check of lines 124-128 runs before the policy check of line
130, so the configuration error is not reported before every access to the
target file. -/
theorem pam_mutex_after_file_check_cex :
    pamMain { domain := "joe", limit_type := "soft", limit_item := "nofile",
              value := "1", use_max := true, use_min := true }
      { isfile := false, writable := false, content := [] } = .error .notVisible ∧
    PamError.notVisible ≠ PamError.mutex := by decide

/-- C2 amended: requesting use_min and use_max together fails with the
mutual exclusion configuration error before any read of the file content
(the outcome is the same for every content), but only after the existence
and writability checks on the target file have passed. -/
theorem pam_mutex_fails_before_content_read (p : Params) (fs : FileState)
    (hmax : p.use_max = true) (hmin : p.use_min = true)
    (ht : pam_types.contains p.limit_type = true)
    (hi : pam_items.contains p.limit_item = true)
    (hf : fs.isfile = true) (hw : fs.writable = true) :
    pamMain p fs = .error .mutex := by
  unfold pamMain
  have ht2 : p.limit_type ∈ pam_types := by simpa using ht
  have hi2 : p.limit_item ∈ pam_items := by simpa using hi
  simp [ht2, hi2, hf, hw, hmax, hmin]

theorem pam_mutex_fails_before_content_read_witness :
    pamMain { domain := "joe", limit_type := "soft", limit_item := "nofile",
              value := "1", use_max := true, use_min := true }
      { isfile := true, writable := true, content := ["anything at all\n"] } =
      .error .mutex :=
  pam_mutex_fails_before_content_read
    { domain := "joe", limit_type := "soft", limit_item := "nofile",
      value := "1", use_max := true, use_min := true }
    { isfile := true, writable := true, content := ["anything at all\n"] }
    (by decide) (by decide) (by decide) (by decide) (by decide) (by decide)

/-- C3 counterexample: a first run against an already converged resource
reports changed false, so the claimed changed true on the first run does not
hold for every desired state and backend. -/
theorem pam_first_run_unchanged_cex :
    pamMain { domain := "joe", limit_type := "soft", limit_item := "nofile",
              value := "64000", use_max := false, use_min := false }
      { isfile := true, writable := true, content := ["joe soft nofile 64000\n"] } =
    .ok { changed := false, content := ["joe soft nofile 64000\n"],
          message := "joe soft nofile 64000\n" } := by decide

/-- C4: for every successful run, every line of the current file maps to
exactly one line of the rewritten file in its original relative position,
with at most an appended tail, and every comment, blank, malformed or other
key line is emitted byte identical; no current line is ever dropped. -/
theorem pam_preserves_unrelated_lines (p : Params) (fs : FileState) (r : RunResult)
    (h : pamMain p fs = .ok r) :
    (∃ tail, r.content = fs.content.map (emitLine p) ++ tail) ∧
    ∀ l ∈ fs.content, preservedLine p l → emitLine p l = l := by
  obtain ⟨_, _, _, _, _, _, happ⟩ := pamMain_ok_inv p fs r h
  obtain ⟨st, hrun, hcases⟩ := pamApply_ok_inv p fs.content r happ
  obtain ⟨ho, hf, hnf⟩ := runLines_ok p fs.content _ st hrun
  constructor
  · rcases hcases with ⟨hfound, rfl⟩ | ⟨hfound, rfl⟩
    · exact ⟨[], by simpa using ho⟩
    · exact ⟨[newLimit p (.pstr p.value)], by simp; simpa using ho⟩
  · exact fun l _ hp => emit_of_preserved p l hp

theorem pam_preserves_unrelated_lines_witness :
    pamMain exParams
      { isfile := true, writable := true,
        content := ["# c\n", "root hard core 1\n", "joe soft nofile 64000\n"] } =
      .ok { changed := true,
            content := ["# c\n", "root hard core 1\n", "joe\tsoft\tnofile\t64000\n"],
            message := "joe\tsoft\tnofile\t64000\n" } ∧
    ((∃ tail,
        ({ changed := true,
           content := ["# c\n", "root hard core 1\n", "joe\tsoft\tnofile\t64000\n"],
           message := "joe\tsoft\tnofile\t64000\n" } : RunResult).content =
        ["# c\n", "root hard core 1\n", "joe soft nofile 64000\n"].map (emitLine exParams)
          ++ tail) ∧
     ∀ l ∈ ["# c\n", "root hard core 1\n", "joe soft nofile 64000\n"],
       preservedLine exParams l → emitLine exParams l = l) :=
  ⟨by decide,
   pam_preserves_unrelated_lines exParams
     { isfile := true, writable := true,
       content := ["# c\n", "root hard core 1\n", "joe soft nofile 64000\n"] }
     { changed := true,
       content := ["# c\n", "root hard core 1\n", "joe\tsoft\tnofile\t64000\n"],
       message := "joe\tsoft\tnofile\t64000\n" }
     (by decide)⟩

/-- C6: when a recognized four field line of the current file carries a
value that is neither a digit string nor a sentinel, the run fails with the
corruption error and the original file is left untouched: the atomic move is
never reached on this path. -/
theorem pam_corrupt_value_fails_and_preserves_file (p : Params) (fs : FileState)
    (ht : pam_types.contains p.limit_type = true)
    (hi : pam_items.contains p.limit_item = true)
    (hf : fs.isfile = true) (hw : fs.writable = true)
    (hmx : (p.use_max && p.use_min) = false)
    (hv : isLimitValue p.value = true)
    (hbad : ∃ l ∈ fs.content, isBadLine l) :
    (∃ item, pamMain p fs = .error (.corrupt item)) ∧
    (pamMainFinal p fs).1 = fs := by
  obtain ⟨i, herr⟩ :=
    runLines_error_of_bad p fs.content
      { found := false, changed := false, message := "", out := [] } hbad
  have hm : pamMain p fs = .error (.corrupt i) := by
    unfold pamMain
    simp only [ht, hi, hf, hw, hmx, hv]
    simp only [ite_false, ite_true, Bool.false_eq_true, not_false_eq_true,
      not_true_eq_false, if_false, if_true]
    unfold pamApply
    rw [herr]
  refine ⟨⟨i, hm⟩, ?_⟩
  unfold pamMainFinal
  rw [hm]

theorem pam_corrupt_value_witness :
    (∃ l ∈ ["joe soft nofile banana\n"], isBadLine l) ∧
    ((∃ item, pamMain exParams
        { isfile := true, writable := true, content := ["joe soft nofile banana\n"] } =
        .error (.corrupt item)) ∧
     (pamMainFinal exParams
        { isfile := true, writable := true, content := ["joe soft nofile banana\n"] }).1 =
       { isfile := true, writable := true, content := ["joe soft nofile banana\n"] }) :=
  ⟨⟨"joe soft nofile banana\n", by decide,
    by decide, "joe", "soft", "nofile", "banana", by decide, by decide⟩,
   pam_corrupt_value_fails_and_preserves_file exParams
     { isfile := true, writable := true, content := ["joe soft nofile banana\n"] }
     (by decide) (by decide) (by decide) (by decide) (by decide) (by decide)
     ⟨"joe soft nofile banana\n", by decide,
      by decide, "joe", "soft", "nofile", "banana", by decide, by decide⟩⟩

/-- C10: when no current line carries the desired key, the run appends one
line holding the desired value verbatim, whatever the policy flags are, and
reports changed true. -/
theorem pam_append_uses_desired_value_verbatim (p : Params) (fs : FileState) (r : RunResult)
    (h : pamMain p fs = .ok r)
    (hnm : ∀ l ∈ fs.content, ¬ keyMatches p l) :
    r.changed = true ∧
    r.content = fs.content ++
      [p.domain ++ "\t" ++ p.limit_type ++ "\t" ++ p.limit_item ++ "\t" ++
        p.value ++ "\n"] := by
  obtain ⟨_, _, _, _, _, _, happ⟩ := pamMain_ok_inv p fs r h
  obtain ⟨st, hrun, hcases⟩ := pamApply_ok_inv p fs.content r happ
  obtain ⟨ho, hf, hnf⟩ := runLines_ok p fs.content _ st hrun
  have hnomatch : fs.content.any (fun l => matchedAction (classify p l)) = false := by
    rw [List.any_eq_false]
    intro l hl hma
    exact hnm l hl (keyMatches_of_matched p l (by simpa using hma))
  have hfound : st.found = false := by rw [hf, hnomatch]; rfl
  have hmap : fs.content.map (emitLine p) = fs.content := by
    rw [List.map_congr_left ?_]
    · exact List.map_id fs.content
    · intro l hl
      refine emitLine_eq_of_not_write p l (fun nl hw => ?_)
      obtain ⟨hcom, a, hsf, _⟩ := classify_eq_write_inv p l nl hw
      exact hnm l hl ⟨hcom, a, hsf⟩
  rcases hcases with ⟨hft, _⟩ | ⟨_, rfl⟩
  · rw [hfound] at hft; exact Bool.noConfusion hft
  · refine ⟨rfl, ?_⟩
    show st.out ++ [newLimit p (.pstr p.value)] = _
    rw [ho, hmap]
    rfl

theorem pam_append_witness :
    pamMain exParams { isfile := true, writable := true, content := ["# c\n"] } =
      .ok { changed := true, content := ["# c\n", "joe\tsoft\tnofile\t32000\n"],
            message := "joe\tsoft\tnofile\t32000\n" } ∧
    (({ changed := true, content := ["# c\n", "joe\tsoft\tnofile\t32000\n"],
        message := "joe\tsoft\tnofile\t32000\n" } : RunResult).changed = true ∧
     ({ changed := true, content := ["# c\n", "joe\tsoft\tnofile\t32000\n"],
        message := "joe\tsoft\tnofile\t32000\n" } : RunResult).content =
       ["# c\n"] ++
         [exParams.domain ++ "\t" ++ exParams.limit_type ++ "\t" ++
           exParams.limit_item ++ "\t" ++ exParams.value ++ "\n"]) :=
  ⟨by decide,
   pam_append_uses_desired_value_verbatim exParams
     { isfile := true, writable := true, content := ["# c\n"] }
     { changed := true, content := ["# c\n", "joe\tsoft\tnofile\t32000\n"],
       message := "joe\tsoft\tnofile\t32000\n" }
     (by decide)
     (by
       intro l hl hk
       rcases hk with ⟨hcom, _, _⟩
       rcases List.mem_singleton.mp hl with rfl
       exact absurd hcom (by decide))⟩

end AnsibleSpec

namespace AnsibleSpec

/-! ## junos_template claim -/

lemma to_lines_go (config : List ConfigItem) : ∀ acc : List String,
    config.foldl
      (fun lines item =>
        if endsWithSemi item.raw then lines ++ [joinSpace (item.parents ++ [item.text])]
        else lines) acc =
    acc ++ (config.filter (fun i => endsWithSemi i.raw)).map
      (fun i => joinSpace (i.parents ++ [i.text])) := by
  induction config with
  | nil => intro acc; simp
  | cons x xs ih =>
      intro acc
      by_cases hx : endsWithSemi x.raw
      · simp only [List.foldl_cons, if_pos hx, ih, List.filter_cons, hx, List.map_cons]
        try simp
      · simp only [List.foldl_cons, if_neg hx, ih, List.filter_cons]
        try simp [hx]

lemma to_lines_eq (config : List ConfigItem) :
    to_lines config = (config.filter (fun i => endsWithSemi i.raw)).map
      (fun i => joinSpace (i.parents ++ [i.text])) := by
  unfold to_lines
  simpa using to_lines_go config []

lemma candidate_go (cfg : List String) (cmds : List String) : ∀ acc : List String,
    cmds.foldl
      (fun cand item => if cfg.contains item then cand else cand ++ ["set " ++ item]) acc =
    acc ++ (cmds.filter (fun l => !cfg.contains l)).map (fun l => "set " ++ l) := by
  induction cmds with
  | nil => intro acc; simp
  | cons x xs ih =>
      intro acc
      by_cases hx : x ∈ cfg
      · rw [List.foldl_cons, if_pos (by simpa using hx), ih]
        simp [List.filter_cons, hx]
      · rw [List.foldl_cons, if_neg (by simpa using hx), ih]
        simp [List.filter_cons, hx]

lemma candidate_eq (cmds cfg : List String) :
    candidate cmds cfg =
      (cmds.filter (fun l => !cfg.contains l)).map (fun l => "set " ++ l) := by
  unfold candidate
  simpa using candidate_go cfg cmds []

/-- C5: the update list computed by junos_template is exactly the list of
desired statement lines (space joined parent chain plus leaf text of the
statements whose raw text ends in a semicolon) that do not occur verbatim
among the current configuration lines, each prefixed with set, in desired
order; a desired line present verbatim in the current configuration produces
no update. -/
theorem junos_updates_exactly_missing_desired_lines (d c : List ConfigItem) :
    to_lines d = (d.filter (fun i => endsWithSemi i.raw)).map
      (fun i => joinSpace (i.parents ++ [i.text])) ∧
    junosUpdates d c =
      ((to_lines d).filter (fun l => !(to_lines c).contains l)).map
        (fun l => "set " ++ l) ∧
    ∀ l ∈ to_lines d, (to_lines c).contains l = true →
      ("set " ++ l) ∉ junosUpdates d c := by
  refine ⟨to_lines_eq d, candidate_eq (to_lines d) (to_lines c), ?_⟩
  intro l _ hc hmem
  rw [junosUpdates, candidate_eq] at hmem
  obtain ⟨l2, hl2, heq⟩ := List.mem_map.mp hmem
  have hdata : ("set " ++ l2).data = ("set " ++ l).data := congrArg String.data heq
  have : l2.data = l.data := List.append_cancel_left hdata
  have hl2l : l2 = l := congrArg String.mk this
  subst hl2l
  have := List.of_mem_filter hl2
  rw [hc] at this
  exact Bool.noConfusion this

theorem junos_updates_witness :
    to_lines [ConfigItem.mk "a;" "a;" [], ConfigItem.mk "b ..." "b ..." []] =
      ([ConfigItem.mk "a;" "a;" [], ConfigItem.mk "b ..." "b ..." []].filter
        (fun i => endsWithSemi i.raw)).map
          (fun i => joinSpace (i.parents ++ [i.text])) ∧
    junosUpdates [ConfigItem.mk "a;" "a;" [], ConfigItem.mk "b ..." "b ..." []]
        [ConfigItem.mk "z;" "z;" []] =
      ((to_lines [ConfigItem.mk "a;" "a;" [], ConfigItem.mk "b ..." "b ..." []]).filter
        (fun l => !(to_lines [ConfigItem.mk "z;" "z;" []]).contains l)).map
          (fun l => "set " ++ l) ∧
    ∀ l ∈ to_lines [ConfigItem.mk "a;" "a;" [], ConfigItem.mk "b ..." "b ..." []],
      (to_lines [ConfigItem.mk "z;" "z;" []]).contains l = true →
      ("set " ++ l) ∉ junosUpdates [ConfigItem.mk "a;" "a;" [], ConfigItem.mk "b ..." "b ..." []]
        [ConfigItem.mk "z;" "z;" []] :=
  junos_updates_exactly_missing_desired_lines
    [ConfigItem.mk "a;" "a;" [], ConfigItem.mk "b ..." "b ..." []]
    [ConfigItem.mk "z;" "z;" []]

/-! ## pkg5 claim -/

/-- C8: a package counts as installed exactly when pkg list exits zero and
as already latest exactly when pkg list -u exits one; ensure runs one batch
command over exactly the packages diverging from the requested state, and a
nonzero exit of that command fails the run with the captured stderr text. -/
theorem pkg5_ensure_probe_and_batch (m : PkgModule) (st : PkgState) (pkgs : List String) :
    (∀ pkg, is_installed m pkg = true ↔ (m.runCommand ["pkg", "list", "--", pkg]).1 = 0) ∧
    (∀ pkg, is_latest m pkg = true ↔ (m.runCommand ["pkg", "list", "-u", "--", pkg]).1 = 1) ∧
    pkgs.filter (stateFilt m st) = pkgs.filter (divergesFromState m st) ∧
    ensure m st pkgs =
      (if (pkgs.filter (divergesFromState m st)).isEmpty then
        { ran := none, rc := none, msg := "", changed := false, failed := false }
      else
        { ran := some (["pkg", subcommandOf st, "-q", "--"] ++
            pkgs.filter (divergesFromState m st)),
          rc := some (m.runCommand (["pkg", subcommandOf st, "-q", "--"] ++
            pkgs.filter (divergesFromState m st))).1,
          msg := (m.runCommand (["pkg", subcommandOf st, "-q", "--"] ++
            pkgs.filter (divergesFromState m st))).2.2,
          changed := true,
          failed := (m.runCommand (["pkg", subcommandOf st, "-q", "--"] ++
            pkgs.filter (divergesFromState m st))).1 != 0 }) := by
  refine ⟨fun pkg => by simp [is_installed], fun pkg => by simp [is_latest], ?_, ?_⟩
  · cases st <;> rfl
  · cases st <;> rfl

/-! ## deploy_helper claims -/

/-- C7: the clean operation first deletes every release folder still holding
the unfinished marker, whatever its age, and then, over folders with
pairwise distinct creation times, retains exactly the keep most recently
created remaining folders and deletes every older one. -/
theorem deploy_clean_retention (keep : Nat) (rs : List Release)
    (hdis : rs.Pairwise (fun a b => a.ctime ≠ b.ctime)) :
    (∀ r ∈ rs, r.unfinished = true → r ∉ (cleanOp keep rs).1) ∧
    (∀ r ∈ (cleanOp keep rs).1, r ∈ rs ∧ r.unfinished = false) ∧
    (cleanOp keep rs).1.length = min keep ((rs.filter (fun r => !r.unfinished)).length) ∧
    (∀ r ∈ (cleanOp keep rs).1, ∀ s ∈ rs, s.unfinished = false →
      s ∉ (cleanOp keep rs).1 → s.ctime < r.ctime) := by
  have hfst : (cleanOp keep rs).1 =
      ((rs.filter (fun r => !r.unfinished)).insertionSort ctimeDesc).take keep := rfl
  have hperm : ((rs.filter (fun r => !r.unfinished)).insertionSort ctimeDesc).Perm
      (rs.filter (fun r => !r.unfinished)) :=
    List.perm_insertionSort ctimeDesc (rs.filter (fun r => !r.unfinished))
  have hsort : ((rs.filter (fun r => !r.unfinished)).insertionSort ctimeDesc).Sorted ctimeDesc :=
    List.sorted_insertionSort ctimeDesc (rs.filter (fun r => !r.unfinished))
  have hsub : ∀ r ∈ (cleanOp keep rs).1, r ∈ rs ∧ r.unfinished = false := by
    intro r hr
    rw [hfst] at hr
    have hr3 : r ∈ rs.filter (fun r => !r.unfinished) :=
      hperm.mem_iff.mp (List.mem_of_mem_take hr)
    have h4 := List.mem_filter.mp hr3
    exact ⟨h4.1, by simpa using h4.2⟩
  refine ⟨?_, hsub, ?_, ?_⟩
  · intro r _ hu hmem
    have h5 := (hsub r hmem).2
    rw [hu] at h5
    exact Bool.noConfusion h5
  · rw [hfst, List.length_take, hperm.length_eq]
  · intro r hr s hs hsfin hsnot
    rw [hfst] at hr hsnot
    have hsmem : s ∈ (rs.filter (fun r => !r.unfinished)).insertionSort ctimeDesc :=
      hperm.mem_iff.mpr (List.mem_filter.mpr ⟨hs, by simp [hsfin]⟩)
    have hsplit := List.take_append_drop keep
      ((rs.filter (fun r => !r.unfinished)).insertionSort ctimeDesc)
    have hsdrop : s ∈ ((rs.filter (fun r => !r.unfinished)).insertionSort ctimeDesc).drop keep := by
      rcases List.mem_append.mp (by rw [hsplit]; exact hsmem) with h | h
      · exact absurd h hsnot
      · exact h
    have hpair : (((rs.filter (fun r => !r.unfinished)).insertionSort ctimeDesc).take keep ++
        ((rs.filter (fun r => !r.unfinished)).insertionSort ctimeDesc).drop keep).Pairwise
          ctimeDesc := by
      rw [hsplit]; exact hsort
    have hle : ctimeDesc r s := (List.pairwise_append.mp hpair).2.2 r hr s hsdrop
    have hdis1 : (rs.filter (fun r => !r.unfinished)).Pairwise
        (fun a b => a.ctime ≠ b.ctime) := hdis.filter _
    have hdis2 : ((rs.filter (fun r => !r.unfinished)).insertionSort ctimeDesc).Pairwise
        (fun a b => a.ctime ≠ b.ctime) :=
      (hperm.pairwise_iff (fun hab => Ne.symm hab)).mpr hdis1
    have hpair2 : (((rs.filter (fun r => !r.unfinished)).insertionSort ctimeDesc).take keep ++
        ((rs.filter (fun r => !r.unfinished)).insertionSort ctimeDesc).drop keep).Pairwise
          (fun a b => a.ctime ≠ b.ctime) := by
      rw [hsplit]; exact hdis2
    have hne : r.ctime ≠ s.ctime := (List.pairwise_append.mp hpair2).2.2 r hr s hsdrop
    exact Nat.lt_of_le_of_ne hle (fun heq => hne heq.symm)

theorem deploy_clean_retention_witness :
    exReleases.Pairwise (fun a b => a.ctime ≠ b.ctime) ∧
    ((∀ r ∈ exReleases, r.unfinished = true → r ∉ (cleanOp 2 exReleases).1) ∧
     (∀ r ∈ (cleanOp 2 exReleases).1, r ∈ exReleases ∧ r.unfinished = false) ∧
     (cleanOp 2 exReleases).1.length =
       min 2 ((exReleases.filter (fun r => !r.unfinished)).length) ∧
     (∀ r ∈ (cleanOp 2 exReleases).1, ∀ s ∈ exReleases, s.unfinished = false →
       s ∉ (cleanOp 2 exReleases).1 → s.ctime < r.ctime)) :=
  ⟨by decide, deploy_clean_retention 2 exReleases (by decide)⟩

/-- C9: every finalize run that passes validation reports changed true,
because create_link returns True unconditionally and so always contributes
one change, even when the symlink already points at the target release. -/
theorem deploy_finalize_always_changed (p : DeployParams) (rs : List Release)
    (hr : p.release ≠ "") (hk : 1 ≤ p.keep_releases) :
    ∃ rs2, finalize p rs = .ok (true, rs2) := by
  unfold finalize
  rw [if_neg hr, if_neg (by omega : ¬ p.keep_releases ≤ 0)]
  dsimp only
  have hpos : 0 < (remove_unfinished_file p.release rs).2 +
      (if create_link then 1 else 0) +
      (if p.clean then cleanOp p.keep_releases.toNat (remove_unfinished_file p.release rs).1
       else ((remove_unfinished_file p.release rs).1, 0)).2 := by
    have h1 : (if create_link then 1 else 0) = 1 := rfl
    rw [h1]
    omega
  rw [decide_eq_true hpos]
  exact ⟨_, rfl⟩

theorem deploy_finalize_always_changed_witness :
    ("r4" : String) ≠ "" ∧ (1 : Int) ≤ 2 ∧
    ∃ rs2, finalize { release := "r4", keep_releases := 2, clean := true } exReleases =
      .ok (true, rs2) :=
  ⟨by decide, by decide,
   deploy_finalize_always_changed
     { release := "r4", keep_releases := 2, clean := true } exReleases
     (by decide) (by decide)⟩

end AnsibleSpec

namespace AnsibleSpec

/-! ## String and digit facts used by the stabilization proof -/

lemma data_append (a b : String) : (a ++ b).data = a.data ++ b.data := rfl

lemma tab_data : ("\t" : String).data = ['\t'] := rfl

lemma nl_data : ("\n" : String).data = ['\n'] := rfl

lemma four_data (d t i s : String) :
    (d ++ "\t" ++ t ++ "\t" ++ i ++ "\t" ++ s ++ "\n").data =
      d.data ++ '\t' :: (t.data ++ '\t' :: (i.data ++ '\t' :: (s.data ++ ['\n']))) := by
  simp [data_append, tab_data, nl_data, List.append_assoc]

lemma goodTok_ne_nil (s : String) (h : goodTok s = true) : s.data ≠ [] := by
  simp only [goodTok, Bool.and_eq_true, Bool.not_eq_true'] at h
  intro hnil
  rw [hnil] at h
  simp at h

lemma goodTok_nonspace (s : String) (h : goodTok s = true) :
    ∀ c ∈ s.data, isSpaceChar c = false := by
  simp only [goodTok, Bool.and_eq_true, List.all_eq_true, Bool.not_eq_true'] at h
  intro c hc
  exact h.2 c hc

lemma tokensGo_cons_nonspace (c : Char) (cs cur : List Char)
    (hc : isSpaceChar c = false) :
    tokensGo (c :: cs) cur = tokensGo cs (c :: cur) := by
  simp only [tokensGo, hc]
  simp

lemma tokensGo_cons_space_cons (c : Char) (cs : List Char) (x : Char) (xs : List Char)
    (hc : isSpaceChar c = true) :
    tokensGo (c :: cs) (x :: xs) = (x :: xs).reverse :: tokensGo cs [] := by
  simp only [tokensGo, hc]
  simp

lemma tokensGo_nonspace_chunk :
    ∀ (w r cur : List Char), (∀ c ∈ w, isSpaceChar c = false) →
      tokensGo (w ++ r) cur = tokensGo r (w.reverse ++ cur)
  | [], r, cur, _ => by simp
  | c :: w, r, cur, h => by
      have hc : isSpaceChar c = false := h c (List.mem_cons_self c w)
      have hw : ∀ x ∈ w, isSpaceChar x = false :=
        fun x hx => h x (List.mem_cons_of_mem c hx)
      rw [List.cons_append, tokensGo_cons_nonspace c (w ++ r) cur hc,
        tokensGo_nonspace_chunk w r (c :: cur) hw]
      simp [List.append_assoc]

lemma tokens_field (w : List Char) (c : Char) (r : List Char)
    (hw : w ≠ []) (hnw : ∀ x ∈ w, isSpaceChar x = false) (hc : isSpaceChar c = true) :
    tokens (w ++ c :: r) = w :: tokens r := by
  unfold tokens
  rw [tokensGo_nonspace_chunk w (c :: r) [] hnw]
  rw [List.append_nil]
  obtain ⟨x, xs, hwrev⟩ : ∃ x xs, w.reverse = x :: xs := by
    cases hrev : w.reverse with
    | nil => exact absurd (by simpa using hrev) hw
    | cons x xs => exact ⟨x, xs, rfl⟩
  rw [hwrev, tokensGo_cons_space_cons c r x xs hc]
  rw [← hwrev, List.reverse_reverse]

lemma splitFields_four (d t i s : String)
    (hd : goodTok d = true) (ht : goodTok t = true)
    (hi : goodTok i = true) (hs : goodTok s = true) :
    splitFields (d ++ "\t" ++ t ++ "\t" ++ i ++ "\t" ++ s ++ "\n") = [d, t, i, s] := by
  unfold splitFields
  rw [four_data]
  rw [tokens_field d.data '\t' _ (goodTok_ne_nil d hd) (goodTok_nonspace d hd) (by decide)]
  rw [tokens_field t.data '\t' _ (goodTok_ne_nil t ht) (goodTok_nonspace t ht) (by decide)]
  rw [tokens_field i.data '\t' _ (goodTok_ne_nil i hi) (goodTok_nonspace i hi) (by decide)]
  have hlast : tokens (s.data ++ ['\n']) = [s.data] := by
    rw [show (['\n'] : List Char) = '\n' :: [] from rfl]
    rw [tokens_field s.data '\n' [] (goodTok_ne_nil s hs) (goodTok_nonspace s hs) (by decide)]
    rfl
  rw [hlast]
  rfl

lemma isCommentLine_four (d t i s : String)
    (hne : d.data ≠ []) (hhash : (d.data.head? == some '#') = false) :
    isCommentLine (d ++ "\t" ++ t ++ "\t" ++ i ++ "\t" ++ s ++ "\n") = false := by
  unfold isCommentLine
  rw [four_data]
  obtain ⟨c, cs, hd2⟩ := List.exists_cons_of_ne_nil hne
  rw [hd2]
  rw [hd2] at hhash
  simpa using hhash

lemma digitChar_digit (m : Nat) : isDigitChar (digitChar m) = true := by
  unfold digitChar
  split_ifs <;> decide

lemma digitChar_val (m : Nat) (hm : m < 10) : (digitChar m).toNat - 48 = m := by
  unfold digitChar
  split_ifs with h0 h1 h2 h3 h4 h5 h6 h7 h8
  · subst h0; decide
  · subst h1; decide
  · subst h2; decide
  · subst h3; decide
  · subst h4; decide
  · subst h5; decide
  · subst h6; decide
  · subst h7; decide
  · subst h8; decide
  · have h9 : m = 9 := by omega
    subst h9; decide

lemma natToDigitsGo_ne_nil : ∀ (fuel n : Nat), n < fuel → natToDigitsGo fuel n ≠ []
  | 0, n, h => absurd h (Nat.not_lt_zero n)
  | fuel + 1, n, _ => by
      unfold natToDigitsGo
      split
      · simp
      · simp

lemma natToDigitsGo_all_digits : ∀ (fuel n : Nat),
    ∀ c ∈ natToDigitsGo fuel n, isDigitChar c = true
  | 0, n => by intro c hc; simp [natToDigitsGo] at hc
  | fuel + 1, n => by
      intro c hc
      unfold natToDigitsGo at hc
      split at hc
      · rw [List.mem_singleton.mp hc]
        exact digitChar_digit n
      · rcases List.mem_append.mp hc with h | h
        · exact natToDigitsGo_all_digits fuel (n / 10) c h
        · rw [List.mem_singleton.mp h]
          exact digitChar_digit (n % 10)

lemma natToDigitsGo_val : ∀ (fuel n : Nat), n < fuel →
    strToNat (String.mk (natToDigitsGo fuel n)) = n
  | 0, n, h => absurd h (Nat.not_lt_zero n)
  | fuel + 1, n, h => by
      unfold natToDigitsGo strToNat
      split
      · rename_i h10
        show List.foldl _ 0 [digitChar n] = n
        have hv := digitChar_val n h10
        simp [List.foldl]
        omega
      · rename_i h10
        push_neg at h10
        have hdiv : n / 10 < fuel := by omega
        have hrec := natToDigitsGo_val fuel (n / 10) hdiv
        unfold strToNat at hrec
        show List.foldl _ 0 (natToDigitsGo fuel (n / 10) ++ [digitChar (n % 10)]) = n
        rw [List.foldl_append]
        rw [hrec]
        show 10 * (n / 10) + ((digitChar (n % 10)).toNat - 48) = n
        have hv := digitChar_val (n % 10) (Nat.mod_lt n (by omega))
        omega

lemma strToNat_natToStr (n : Nat) : strToNat (natToStr n) = n :=
  natToDigitsGo_val (n + 1) n (Nat.lt_succ_self n)

lemma pyIsdigit_natToStr (n : Nat) : pyIsdigit (natToStr n) = true := by
  unfold pyIsdigit natToStr
  have h1 := natToDigitsGo_ne_nil (n + 1) n (Nat.lt_succ_self n)
  have h2 := natToDigitsGo_all_digits (n + 1) n
  simp only [Bool.and_eq_true, Bool.not_eq_true', List.all_eq_true]
  constructor
  · simpa [List.isEmpty_iff] using h1
  · exact h2

lemma isDigit_not_space (c : Char) (h : isDigitChar c = true) : isSpaceChar c = false := by
  simp only [isDigitChar, Bool.and_eq_true, decide_eq_true_eq] at h
  simp only [isSpaceChar, Bool.or_eq_false_iff, beq_eq_false_iff_ne, ne_eq]
  omega

lemma goodTok_of_pyIsdigit (s : String) (h : pyIsdigit s = true) : goodTok s = true := by
  simp only [pyIsdigit, Bool.and_eq_true, Bool.not_eq_true', List.all_eq_true] at h
  simp only [goodTok, Bool.and_eq_true, Bool.not_eq_true', List.all_eq_true]
  exact ⟨h.1, fun c hc => by simpa using isDigit_not_space c (h.2 c hc)⟩

lemma goodTok_natToStr (n : Nat) : goodTok (natToStr n) = true :=
  goodTok_of_pyIsdigit (natToStr n) (pyIsdigit_natToStr n)

lemma isLimitValue_natToStr (n : Nat) : isLimitValue (natToStr n) = true := by
  unfold isLimitValue
  rw [pyIsdigit_natToStr]
  simp

lemma goodTok_of_isLimitValue (v : String) (h : isLimitValue v = true) :
    goodTok v = true := by
  unfold isLimitValue at h
  rcases Bool.or_eq_true_iff.mp h with hs | hd
  · have hmem : v ∈ sentinels := by simpa using hs
    fin_cases hmem <;> decide
  · exact goodTok_of_pyIsdigit v hd

lemma goodTok_of_type (t : String) (h : t ∈ pam_types) : goodTok t = true := by
  fin_cases h <;> decide

lemma goodTok_of_item (i : String) (h : i ∈ pam_items) : goodTok i = true := by
  revert h
  have : ∀ x ∈ pam_items, goodTok x = true := by decide
  exact this i

end AnsibleSpec

namespace AnsibleSpec

/-! ## Stability of the rewrite under a second run -/

lemma classify_of_fields (p : Params) (l : String) (a : String)
    (hcom : isCommentLine l = false)
    (hsf : splitFields l = [p.domain, p.limit_type, p.limit_item, a])
    (ha : isLimitValue a = true) :
    classify p l =
      (if p.value = a then .keepLine
       else if pyEq (newValue p a) (.pstr a) then .keepLine
       else .writeLine (newLimit p (newValue p a))) := by
  unfold classify
  rw [hcom, hsf]
  simp [ha]

lemma newValue_none (p : Params) (a : String)
    (hmax : p.use_max = false) (hmin : p.use_min = false) :
    newValue p a = .pstr p.value := by
  unfold newValue
  rw [hmax, hmin]
  simp

lemma newValue_max (p : Params) (a : String)
    (hmax : p.use_max = true) (hmin : p.use_min = false) :
    newValue p a =
      (if pyIsdigit p.value && pyIsdigit a then
        .pint (Nat.max (strToNat p.value) (strToNat a))
      else if sentinels.contains a then .pstr a
      else .pstr p.value) := by
  unfold newValue
  rw [hmax, hmin]
  simp

lemma newValue_min (p : Params) (a : String) (hmin : p.use_min = true) :
    newValue p a =
      (if pyIsdigit p.value && pyIsdigit a then
        .pint (Nat.min (strToNat p.value) (strToNat a))
      else if sentinels.contains p.value then .pstr a
      else .pstr p.value) := by
  unfold newValue
  rw [hmin]
  simp

lemma newValue_shape (p : Params) (a : String)
    (_hmx : (p.use_max && p.use_min) = false)
    (hne : pyEq (newValue p a) (.pstr a) = false) :
    newValue p a = .pstr p.value ∨
    (p.use_max = true ∧ pyIsdigit p.value = true ∧
      newValue p a = .pint (Nat.max (strToNat p.value) (strToNat a))) ∨
    (p.use_min = true ∧ pyIsdigit p.value = true ∧
      newValue p a = .pint (Nat.min (strToNat p.value) (strToNat a))) := by
  cases hmin : p.use_min with
  | true =>
      have hval := newValue_min p a hmin
      rw [hval] at hne ⊢
      by_cases hdd : (pyIsdigit p.value && pyIsdigit a) = true
      · have hdd2 : pyIsdigit p.value = true ∧ pyIsdigit a = true := by simpa using hdd
        exact Or.inr (Or.inr ⟨rfl, hdd2.1, by rw [if_pos hdd]⟩)
      · rw [if_neg hdd] at hne ⊢
        by_cases hsen : sentinels.contains p.value = true
        · rw [if_pos hsen] at hne
          simp [pyEq] at hne
        · rw [if_neg hsen] at hne ⊢
          exact Or.inl rfl
  | false =>
      cases hmax : p.use_max with
      | false => exact Or.inl (newValue_none p a hmax hmin)
      | true =>
          have hval := newValue_max p a hmax hmin
          rw [hval] at hne ⊢
          by_cases hdd : (pyIsdigit p.value && pyIsdigit a) = true
          · have hdd2 : pyIsdigit p.value = true ∧ pyIsdigit a = true := by simpa using hdd
            exact Or.inr (Or.inl ⟨rfl, hdd2.1, by rw [if_pos hdd]⟩)
          · rw [if_neg hdd] at hne ⊢
            by_cases hsen : sentinels.contains a = true
            · rw [if_pos hsen] at hne
              simp [pyEq] at hne
            · rw [if_neg hsen] at hne ⊢
              exact Or.inl rfl

lemma nat_max_absorb (v a : Nat) : Nat.max v (Nat.max v a) = Nat.max v a := by
  simp only [Nat.max_def]
  split_ifs <;> omega

lemma nat_min_absorb (v a : Nat) : Nat.min v (Nat.min v a) = Nat.min v a := by
  simp only [Nat.min_def]
  split_ifs <;> omega

lemma classify_image (p : Params) (nv : PyVal)
    (hd : goodDomain p.domain = true)
    (htt : p.limit_type ∈ pam_types) (hii : p.limit_item ∈ pam_items)
    (hv : isLimitValue p.value = true)
    (hmx : (p.use_max && p.use_min) = false)
    (hshape : nv = .pstr p.value ∨
      (p.use_max = true ∧ pyIsdigit p.value = true ∧
        ∃ a2, nv = .pint (Nat.max (strToNat p.value) a2)) ∨
      (p.use_min = true ∧ pyIsdigit p.value = true ∧
        ∃ a2, nv = .pint (Nat.min (strToNat p.value) a2))) :
    classify p (newLimit p nv) = .keepLine ∨
    classify p (newLimit p nv) = .writeLine (newLimit p nv) := by
  have hgd : goodTok p.domain = true := by
    simp only [goodDomain, Bool.and_eq_true] at hd
    exact hd.1
  have hdne : p.domain.data ≠ [] := goodTok_ne_nil _ hgd
  have hdhash : (p.domain.data.head? == some '#') = false := by
    simp only [goodDomain, Bool.and_eq_true, Bool.not_eq_true'] at hd
    exact hd.2
  have hstok : goodTok (pyStr nv) = true := by
    rcases hshape with rfl | ⟨_, _, a2, rfl⟩ | ⟨_, _, a2, rfl⟩
    · exact goodTok_of_isLimitValue p.value hv
    · exact goodTok_natToStr _
    · exact goodTok_natToStr _
  have hsval : isLimitValue (pyStr nv) = true := by
    rcases hshape with rfl | ⟨_, _, a2, rfl⟩ | ⟨_, _, a2, rfl⟩
    · exact hv
    · exact isLimitValue_natToStr _
    · exact isLimitValue_natToStr _
  have hcom : isCommentLine (newLimit p nv) = false :=
    isCommentLine_four p.domain p.limit_type p.limit_item (pyStr nv) hdne hdhash
  have hsf : splitFields (newLimit p nv) =
      [p.domain, p.limit_type, p.limit_item, pyStr nv] :=
    splitFields_four p.domain p.limit_type p.limit_item (pyStr nv)
      hgd (goodTok_of_type _ htt) (goodTok_of_item _ hii) hstok
  rw [classify_of_fields p (newLimit p nv) (pyStr nv) hcom hsf hsval]
  by_cases hveq : p.value = pyStr nv
  · rw [if_pos hveq]
    exact Or.inl rfl
  · rw [if_neg hveq]
    rcases hshape with rfl | ⟨hmax, hdig, a2, rfl⟩ | ⟨hmin2, hdig, a2, rfl⟩
    · exact absurd rfl hveq
    · have hmin : p.use_min = false := by
        cases hm : p.use_min
        · rfl
        · rw [hmax, hm] at hmx
          exact Bool.noConfusion hmx
      have hdig2 : pyIsdigit (natToStr (Nat.max (strToNat p.value) a2)) = true :=
        pyIsdigit_natToStr _
      have hnv3 : newValue p (pyStr (PyVal.pint (Nat.max (strToNat p.value) a2))) =
          .pint (Nat.max (strToNat p.value) a2) := by
        show newValue p (natToStr (Nat.max (strToNat p.value) a2)) = _
        rw [newValue_max p _ hmax hmin, if_pos (by simp [hdig, hdig2])]
        rw [strToNat_natToStr]
        exact congrArg PyVal.pint (nat_max_absorb (strToNat p.value) a2)
      have hpy : ¬ (pyEq (newValue p (pyStr (PyVal.pint (Nat.max (strToNat p.value) a2))))
          (.pstr (pyStr (PyVal.pint (Nat.max (strToNat p.value) a2)))) = true) := by
        rw [hnv3]
        simp [pyEq]
      rw [if_neg hpy, hnv3]
      exact Or.inr rfl
    · have hdig2 : pyIsdigit (natToStr (Nat.min (strToNat p.value) a2)) = true :=
        pyIsdigit_natToStr _
      have hnv3 : newValue p (pyStr (PyVal.pint (Nat.min (strToNat p.value) a2))) =
          .pint (Nat.min (strToNat p.value) a2) := by
        show newValue p (natToStr (Nat.min (strToNat p.value) a2)) = _
        rw [newValue_min p _ hmin2, if_pos (by simp [hdig, hdig2])]
        rw [strToNat_natToStr]
        exact congrArg PyVal.pint (nat_min_absorb (strToNat p.value) a2)
      have hpy : ¬ (pyEq (newValue p (pyStr (PyVal.pint (Nat.min (strToNat p.value) a2))))
          (.pstr (pyStr (PyVal.pint (Nat.min (strToNat p.value) a2)))) = true) := by
        rw [hnv3]
        simp [pyEq]
      rw [if_neg hpy, hnv3]
      exact Or.inr rfl

lemma classify_append_keep (p : Params)
    (hd : goodDomain p.domain = true) (htt : p.limit_type ∈ pam_types)
    (hii : p.limit_item ∈ pam_items) (hv : isLimitValue p.value = true) :
    classify p (newLimit p (.pstr p.value)) = .keepLine := by
  have hgd : goodTok p.domain = true := by
    simp only [goodDomain, Bool.and_eq_true] at hd
    exact hd.1
  have hdne : p.domain.data ≠ [] := goodTok_ne_nil _ hgd
  have hdhash : (p.domain.data.head? == some '#') = false := by
    simp only [goodDomain, Bool.and_eq_true, Bool.not_eq_true'] at hd
    exact hd.2
  have hcom : isCommentLine (newLimit p (.pstr p.value)) = false :=
    isCommentLine_four p.domain p.limit_type p.limit_item p.value hdne hdhash
  have hsf : splitFields (newLimit p (.pstr p.value)) =
      [p.domain, p.limit_type, p.limit_item, p.value] :=
    splitFields_four p.domain p.limit_type p.limit_item p.value
      hgd (goodTok_of_type _ htt) (goodTok_of_item _ hii) (goodTok_of_isLimitValue _ hv)
  rw [classify_of_fields p _ p.value hcom hsf hv]
  rw [if_pos rfl]

lemma line_image_stable (p : Params)
    (hd : goodDomain p.domain = true) (htt : p.limit_type ∈ pam_types)
    (hii : p.limit_item ∈ pam_items) (hv : isLimitValue p.value = true)
    (hmx : (p.use_max && p.use_min) = false)
    (l : String) (hnf : ∀ i, classify p l ≠ .failLine i) :
    (∀ i, classify p (emitLine p l) ≠ .failLine i) ∧
    emitLine p (emitLine p l) = emitLine p l ∧
    matchedAction (classify p (emitLine p l)) = matchedAction (classify p l) := by
  cases hc : classify p l with
  | failLine i => exact absurd hc (hnf i)
  | copyLine =>
      have he : emitLine p l = l := by unfold emitLine; rw [hc]
      refine ⟨?_, ?_, ?_⟩
      · rw [he]; exact hnf
      · rw [he]; exact he
      · rw [he, hc]
  | keepLine =>
      have he : emitLine p l = l := by unfold emitLine; rw [hc]
      refine ⟨?_, ?_, ?_⟩
      · rw [he]; exact hnf
      · rw [he]; exact he
      · rw [he, hc]
  | writeLine nl =>
      have he : emitLine p l = nl := by unfold emitLine; rw [hc]
      obtain ⟨hcom0, a, hsf0, haval, hvne, hne, hnl⟩ := classify_eq_write_inv p l nl hc
      have hshape0 := newValue_shape p a hmx hne
      have hshape : newValue p a = .pstr p.value ∨
          (p.use_max = true ∧ pyIsdigit p.value = true ∧
            ∃ a2, newValue p a = .pint (Nat.max (strToNat p.value) a2)) ∨
          (p.use_min = true ∧ pyIsdigit p.value = true ∧
            ∃ a2, newValue p a = .pint (Nat.min (strToNat p.value) a2)) := by
        rcases hshape0 with h | ⟨h1, h2, h3⟩ | ⟨h1, h2, h3⟩
        · exact Or.inl h
        · exact Or.inr (Or.inl ⟨h1, h2, strToNat a, h3⟩)
        · exact Or.inr (Or.inr ⟨h1, h2, strToNat a, h3⟩)
      have himg := classify_image p (newValue p a) hd htt hii hv hmx hshape
      rw [← hnl] at himg
      refine ⟨?_, ?_, ?_⟩
      · rw [he]
        intro i hcontra
        rcases himg with h | h <;> rw [h] at hcontra <;> exact LineAction.noConfusion hcontra
      · rw [he]
        rcases himg with h | h
        · unfold emitLine; rw [h]
        · unfold emitLine; rw [h]
      · rw [he]
        rcases himg with h | h
        · rw [h]
          rfl
        · rw [h]

lemma anyCongr {α : Type} (l : List α) (f g : α → Bool) (h : ∀ x ∈ l, f x = g x) :
    l.any f = l.any g := by
  induction l with
  | nil => rfl
  | cons x xs ih =>
      simp only [List.any_cons]
      rw [h x (List.mem_cons_self x xs), ih (fun y hy => h y (List.mem_cons_of_mem x hy))]

lemma pamMain_eq_apply (p : Params) (fs : FileState)
    (ht : pam_types.contains p.limit_type = true)
    (hi : pam_items.contains p.limit_item = true)
    (hif : fs.isfile = true) (hwr : fs.writable = true)
    (hmx : (p.use_max && p.use_min) = false)
    (hv : isLimitValue p.value = true) :
    pamMain p fs = pamApply p fs.content := by
  unfold pamMain
  have ht2 : p.limit_type ∈ pam_types := by simpa using ht
  have hi2 : p.limit_item ∈ pam_items := by simpa using hi
  simp [ht2, hi2, hif, hwr, hmx, hv]

lemma pamApply_found (p : Params) (ls : List String) (st2 : LoopState)
    (hrun : runLines p ls { found := false, changed := false, message := "", out := [] } =
      .ok st2)
    (hfound : st2.found = true) :
    pamApply p ls =
      .ok { changed := st2.changed, content := st2.out, message := st2.message } := by
  unfold pamApply
  rw [hrun]
  show (if st2.found = true then
      (Except.ok { changed := st2.changed, content := st2.out, message := st2.message } :
        Except PamError RunResult)
    else .ok { changed := true, content := st2.out ++ [newLimit p (.pstr p.value)],
               message := newLimit p (.pstr p.value) }) = _
  rw [if_pos hfound]

end AnsibleSpec

namespace AnsibleSpec

/-- List level stability: rerunning the rewrite on the list of lines the
first run wrote reproduces that list.  The file level theorem below feeds
the written lines through the byte concatenation and line resplit first. -/
lemma pam_second_run_list_stable (p : Params) (fs : FileState) (r1 : RunResult)
    (hd : goodDomain p.domain = true)
    (h : pamMain p fs = .ok r1) :
    ∃ r2, pamMain p { fs with content := r1.content } = .ok r2 ∧
      r2.content = r1.content := by
  obtain ⟨ht, hi, hif, hwr, hmx, hv, happ⟩ := pamMain_ok_inv p fs r1 h
  have htt : p.limit_type ∈ pam_types := by simpa using ht
  have hii : p.limit_item ∈ pam_items := by simpa using hi
  obtain ⟨st, hrun, hcases⟩ := pamApply_ok_inv p fs.content r1 happ
  obtain ⟨ho, hf, hnf⟩ := runLines_ok p fs.content _ st hrun
  have hstab : ∀ l0 ∈ fs.content,
      (∀ i, classify p (emitLine p l0) ≠ .failLine i) ∧
      emitLine p (emitLine p l0) = emitLine p l0 ∧
      matchedAction (classify p (emitLine p l0)) = matchedAction (classify p l0) :=
    fun l0 hl0 => line_image_stable p hd htt hii hv hmx l0 (hnf l0 hl0)
  have hmain2 : pamMain p { fs with content := r1.content } = pamApply p r1.content :=
    pamMain_eq_apply p { fs with content := r1.content } ht hi hif hwr hmx hv
  rcases hcases with ⟨hfound, hr1⟩ | ⟨hfound, hr1⟩
  · -- a line matched: the output is the per line image of the input
    have hcontent : r1.content = fs.content.map (emitLine p) := by
      rw [hr1]
      show st.out = _
      rw [ho]
      simp
    have hnf2 : ∀ l ∈ fs.content.map (emitLine p), ∀ i, classify p l ≠ .failLine i := by
      intro l hl
      obtain ⟨l0, hl0, rfl⟩ := List.mem_map.mp hl
      exact (hstab l0 hl0).1
    obtain ⟨st2, hrun2⟩ := runLines_no_fail_ok p (fs.content.map (emitLine p))
      { found := false, changed := false, message := "", out := [] } hnf2
    obtain ⟨ho2, hf2, _⟩ := runLines_ok p _ _ st2 hrun2
    have hany : (fs.content.map (emitLine p)).any (fun l => matchedAction (classify p l)) =
        fs.content.any (fun l => matchedAction (classify p l)) := by
      rw [List.any_map]
      exact anyCongr fs.content _ _ (fun l0 hl0 => (hstab l0 hl0).2.2)
    have hstf : fs.content.any (fun l => matchedAction (classify p l)) = st.found := by
      rw [hf]
      simp
    have hfound2 : st2.found = true := by
      rw [hf2]
      simp only [Bool.false_or]
      rw [hany, hstf, hfound]
    have hout2 : st2.out = fs.content.map (emitLine p) := by
      rw [ho2]
      simp only [List.nil_append]
      have hpt : ∀ l ∈ fs.content.map (emitLine p), emitLine p l = l := by
        intro l hl
        obtain ⟨l0, hl0, rfl⟩ := List.mem_map.mp hl
        exact (hstab l0 hl0).2.1
      rw [List.map_congr_left hpt]
      simp
    refine ⟨{ changed := st2.changed, content := st2.out, message := st2.message }, ?_, ?_⟩
    · rw [hmain2, hcontent]
      exact pamApply_found p _ st2 hrun2 hfound2
    · show st2.out = r1.content
      rw [hout2, hcontent]
  · -- no line matched: the first run appended the desired entry
    have happline := classify_append_keep p hd htt hii hv
    have hcontent : r1.content =
        fs.content.map (emitLine p) ++ [newLimit p (.pstr p.value)] := by
      rw [hr1]
      show st.out ++ _ = _
      rw [ho]
      simp
    have hnf2 : ∀ l ∈ fs.content.map (emitLine p) ++ [newLimit p (.pstr p.value)],
        ∀ i, classify p l ≠ .failLine i := by
      intro l hl
      rcases List.mem_append.mp hl with hl | hl
      · obtain ⟨l0, hl0, rfl⟩ := List.mem_map.mp hl
        exact (hstab l0 hl0).1
      · rw [List.mem_singleton.mp hl]
        intro i hcontra
        rw [happline] at hcontra
        exact LineAction.noConfusion hcontra
    obtain ⟨st2, hrun2⟩ := runLines_no_fail_ok p
      (fs.content.map (emitLine p) ++ [newLimit p (.pstr p.value)])
      { found := false, changed := false, message := "", out := [] } hnf2
    obtain ⟨ho2, hf2, _⟩ := runLines_ok p _ _ st2 hrun2
    have hfound2 : st2.found = true := by
      rw [hf2]
      simp only [Bool.false_or]
      rw [List.any_eq_true]
      refine ⟨newLimit p (.pstr p.value), List.mem_append_right _ ?_, ?_⟩
      · exact List.mem_singleton_self _
      · rw [happline]
        rfl
    have hout2 : st2.out = fs.content.map (emitLine p) ++ [newLimit p (.pstr p.value)] := by
      rw [ho2]
      simp only [List.nil_append]
      have hpt : ∀ l ∈ fs.content.map (emitLine p) ++ [newLimit p (.pstr p.value)],
          emitLine p l = l := by
        intro l hl
        rcases List.mem_append.mp hl with hl | hl
        · obtain ⟨l0, hl0, rfl⟩ := List.mem_map.mp hl
          exact (hstab l0 hl0).2.1
        · rw [List.mem_singleton.mp hl]
          unfold emitLine
          rw [happline]
      rw [List.map_congr_left hpt]
      simp
    refine ⟨{ changed := st2.changed, content := st2.out, message := st2.message }, ?_, ?_⟩
    · rw [hmain2, hcontent]
      exact pamApply_found p _ st2 hrun2 hfound2
    · show st2.out = r1.content
      rw [hout2, hcontent]

/-! ## From written lines back to read lines -/

lemma properLine_decomp (l : String) (h : properLine l = true) :
    ∃ w, l.data = w ++ ['\n'] ∧ ∀ c ∈ w, (c == '\n') = false := by
  simp only [properLine, Bool.and_eq_true, Bool.not_eq_true', List.all_eq_true] at h
  obtain ⟨⟨hne, hlast⟩, hdrop⟩ := h
  have hne2 : l.data ≠ [] := by
    intro hnil
    rw [hnil] at hne
    simp at hne
  have hgl : l.data.getLast? = some '\n' := by simpa using hlast
  have hgl2 : l.data.getLast hne2 = '\n' := by
    have h3 := List.getLast?_eq_getLast l.data hne2
    rw [h3] at hgl
    injection hgl
  refine ⟨l.data.dropLast, ?_, ?_⟩
  · rw [← hgl2]
    exact (List.dropLast_append_getLast hne2).symm
  · intro c hc
    exact hdrop c hc

lemma pyLinesGo_chunk :
    ∀ (w r cur : List Char), (∀ c ∈ w, (c == '\n') = false) →
      pyLinesGo (w ++ r) cur = pyLinesGo r (w.reverse ++ cur)
  | [], r, cur, _ => by simp
  | c :: w, r, cur, h => by
      have hc : (c == '\n') = false := h c (List.mem_cons_self c w)
      have hw : ∀ x ∈ w, (x == '\n') = false :=
        fun x hx => h x (List.mem_cons_of_mem c hx)
      rw [List.cons_append]
      have hstep : pyLinesGo (c :: (w ++ r)) cur = pyLinesGo (w ++ r) (c :: cur) := by
        simp only [pyLinesGo]
        rw [if_neg (by simpa using hc)]
      rw [hstep, pyLinesGo_chunk w r (c :: cur) hw]
      simp [List.append_assoc]

lemma pyLinesGo_newline (r cur : List Char) :
    pyLinesGo ('\n' :: r) cur = String.mk (cur.reverse ++ ['\n']) :: pyLinesGo r [] := by
  simp [pyLinesGo]

/-- Rewriting the moved file and reopening it reads back exactly the
written lines, as long as every written line is newline terminated with no
interior newline. -/
lemma pyLines_joinLines : ∀ (ls : List String), (∀ l ∈ ls, properLine l = true) →
    pyLines (joinLines ls) = ls
  | [], _ => rfl
  | l :: ls, h => by
      obtain ⟨w, hw, hnw⟩ := properLine_decomp l (h l (List.mem_cons_self l ls))
      have htail : ∀ x ∈ ls, properLine x = true :=
        fun x hx => h x (List.mem_cons_of_mem l hx)
      have hIH := pyLines_joinLines ls htail
      unfold pyLines at hIH ⊢
      show pyLinesGo (l ++ joinLines ls).data [] = l :: ls
      rw [data_append, hw, List.append_assoc, List.singleton_append]
      rw [pyLinesGo_chunk w _ [] hnw]
      rw [List.append_nil]
      rw [pyLinesGo_newline]
      rw [List.reverse_reverse, hIH, ← hw]

lemma properLine_four (d t i s : String)
    (hd : goodTok d = true) (ht : goodTok t = true)
    (hi : goodTok i = true) (hs : goodTok s = true) :
    properLine (d ++ "\t" ++ t ++ "\t" ++ i ++ "\t" ++ s ++ "\n") = true := by
  have hdata2 : (d ++ "\t" ++ t ++ "\t" ++ i ++ "\t" ++ s ++ "\n").data =
      (d.data ++ '\t' :: t.data ++ '\t' :: i.data ++ '\t' :: s.data) ++ ['\n'] := by
    rw [four_data]
    simp [List.append_assoc]
  have hno : ∀ (u : String), goodTok u = true → ∀ c ∈ u.data, (c == '\n') = false := by
    intro u hu c hc
    have hsp := goodTok_nonspace u hu c hc
    simp only [beq_eq_false_iff_ne, ne_eq]
    intro heq
    subst heq
    have hcontra : isSpaceChar '\n' = true := by decide
    rw [hcontra] at hsp
    exact Bool.noConfusion hsp
  unfold properLine
  rw [hdata2]
  simp only [Bool.and_eq_true]
  refine ⟨⟨?_, ?_⟩, ?_⟩
  · simp [List.isEmpty_iff]
  · rw [List.getLast?_concat]
    decide
  · rw [List.dropLast_concat, List.all_eq_true]
    intro c hc
    simp only [List.mem_append, List.mem_cons] at hc
    rcases hc with ((hc | rfl | hc) | rfl | hc) | rfl | hc
    · simpa using hno d hd c hc
    · decide
    · simpa using hno t ht c hc
    · decide
    · simpa using hno i hi c hc
    · decide
    · simpa using hno s hs c hc

lemma goodTok_newValue (p : Params) (a : String)
    (hmx : (p.use_max && p.use_min) = false)
    (hv : isLimitValue p.value = true)
    (hne : pyEq (newValue p a) (.pstr a) = false) :
    goodTok (pyStr (newValue p a)) = true := by
  rcases newValue_shape p a hmx hne with h | ⟨_, _, h⟩ | ⟨_, _, h⟩
  · rw [h]
    exact goodTok_of_isLimitValue p.value hv
  · rw [h]
    exact goodTok_natToStr _
  · rw [h]
    exact goodTok_natToStr _

lemma properLine_emit (p : Params) (l : String)
    (hd : goodDomain p.domain = true) (htt : p.limit_type ∈ pam_types)
    (hii : p.limit_item ∈ pam_items) (hv : isLimitValue p.value = true)
    (hmx : (p.use_max && p.use_min) = false)
    (hl : properLine l = true) : properLine (emitLine p l) = true := by
  cases hc : classify p l with
  | copyLine => unfold emitLine; rw [hc]; exact hl
  | keepLine => unfold emitLine; rw [hc]; exact hl
  | failLine i => unfold emitLine; rw [hc]; exact hl
  | writeLine nl =>
      have he : emitLine p l = nl := by unfold emitLine; rw [hc]
      rw [he]
      obtain ⟨_, a, _, _, _, hne, hnl⟩ := classify_eq_write_inv p l nl hc
      rw [hnl]
      have hgd : goodTok p.domain = true := by
        simp only [goodDomain, Bool.and_eq_true] at hd
        exact hd.1
      exact properLine_four p.domain p.limit_type p.limit_item (pyStr (newValue p a))
        hgd (goodTok_of_type _ htt) (goodTok_of_item _ hii)
        (goodTok_newValue p a hmx hv hne)

/-- Every line a successful run writes is newline terminated without an
interior newline, when every current line is. -/
lemma pam_out_proper (p : Params) (fs : FileState) (r1 : RunResult)
    (hd : goodDomain p.domain = true)
    (hproper : ∀ l ∈ fs.content, properLine l = true)
    (h : pamMain p fs = .ok r1) :
    ∀ l ∈ r1.content, properLine l = true := by
  obtain ⟨ht, hi, _, _, hmx, hv, happ⟩ := pamMain_ok_inv p fs r1 h
  have htt : p.limit_type ∈ pam_types := by simpa using ht
  have hii : p.limit_item ∈ pam_items := by simpa using hi
  have hgd : goodTok p.domain = true := by
    simp only [goodDomain, Bool.and_eq_true] at hd
    exact hd.1
  have happroper : properLine (newLimit p (.pstr p.value)) = true :=
    properLine_four p.domain p.limit_type p.limit_item p.value
      hgd (goodTok_of_type _ htt) (goodTok_of_item _ hii) (goodTok_of_isLimitValue _ hv)
  obtain ⟨st, hrun, hcases⟩ := pamApply_ok_inv p fs.content r1 happ
  obtain ⟨ho, _, _⟩ := runLines_ok p fs.content _ st hrun
  have hmapproper : ∀ l ∈ fs.content.map (emitLine p), properLine l = true := by
    intro l hl
    obtain ⟨l0, hl0, rfl⟩ := List.mem_map.mp hl
    exact properLine_emit p l0 hd htt hii hv hmx (hproper l0 hl0)
  rcases hcases with ⟨_, hr1⟩ | ⟨_, hr1⟩
  · intro l hl
    rw [hr1] at hl
    have hl2 : l ∈ st.out := hl
    rw [ho] at hl2
    simp only [List.nil_append] at hl2
    exact hmapproper l hl2
  · intro l hl
    rw [hr1] at hl
    have hl2 : l ∈ st.out ++ [newLimit p (.pstr p.value)] := hl
    rw [ho] at hl2
    simp only [List.nil_append] at hl2
    rcases List.mem_append.mp hl2 with hl3 | hl3
    · exact hmapproper l hl3
    · rw [List.mem_singleton.mp hl3]
      exact happroper

/-- C3 amended: running the limits reconciler twice in a row leaves the
second run with a resulting snapshot identical to the first run's result,
provided the domain is nonempty, whitespace free and does not begin with
the comment character, and every line of the current file is newline
terminated with no interior newline (the file bytes end with a newline).
The second run reads pyLines of joinLines of the first run's written lines,
exactly what reopening the atomically moved file yields; the theorem shows
this resplit reproduces the written lines and the rerun keeps them.  Without
the trailing newline the appended entry merges with the unterminated last
line and the runs do not stabilize, and the changed flags do not follow the
claimed true then false pattern in general (see the counterexample of the
first run on a converged resource). -/
theorem pam_second_run_snapshot_stable (p : Params) (fs : FileState) (r1 : RunResult)
    (hd : goodDomain p.domain = true)
    (hproper : ∀ l ∈ fs.content, properLine l = true)
    (h : pamMain p fs = .ok r1) :
    pyLines (joinLines r1.content) = r1.content ∧
    ∃ r2, pamMain p { fs with content := pyLines (joinLines r1.content) } = .ok r2 ∧
      r2.content = r1.content := by
  have hre : pyLines (joinLines r1.content) = r1.content :=
    pyLines_joinLines r1.content (pam_out_proper p fs r1 hd hproper h)
  refine ⟨hre, ?_⟩
  rw [hre]
  exact pam_second_run_list_stable p fs r1 hd h

theorem pam_second_run_snapshot_stable_witness :
    goodDomain exParams.domain = true ∧
    (∀ l ∈ ["joe soft nofile 64000\n"], properLine l = true) ∧
    pamMain exParams
      { isfile := true, writable := true, content := ["joe soft nofile 64000\n"] } =
      .ok { changed := true, content := ["joe\tsoft\tnofile\t64000\n"],
            message := "joe\tsoft\tnofile\t64000\n" } ∧
    (pyLines (joinLines ["joe\tsoft\tnofile\t64000\n"]) = ["joe\tsoft\tnofile\t64000\n"] ∧
     ∃ r2, pamMain exParams
         { isfile := true, writable := true,
           content := pyLines (joinLines ["joe\tsoft\tnofile\t64000\n"]) } =
         .ok r2 ∧
       r2.content = ["joe\tsoft\tnofile\t64000\n"]) :=
  ⟨by decide, by decide, by decide,
   pam_second_run_snapshot_stable exParams
     { isfile := true, writable := true, content := ["joe soft nofile 64000\n"] }
     { changed := true, content := ["joe\tsoft\tnofile\t64000\n"],
       message := "joe\tsoft\tnofile\t64000\n" }
     (by decide) (by decide) (by decide)⟩

end AnsibleSpec
